import Mathlib

/-!
Verification development for the MLFS virtual filesystem engine
(`mlfs.py`, "MLFS – Machine-Learning FileSystem, v0.6").

The engine keeps an in-memory tree of `VNode`s and serves FUSE-style
operations (`getattr`, `read`, `write`, `open`, `truncate`) over it.  The
shallow embedding below mirrors the Python source:

* Python strings become `List Char` (`Str`); byte buffers (`bytes`,
  `bytearray`, `memoryview` payloads) become `List Nat` (`Bytes`).
* `VNode` carries name, `st_mode` bits, the three timestamps, the ordered
  children mapping (association list, insertion-ordered like
  `OrderedDict`) and the payload.  Timestamps are explicit `Nat`
  parameters instead of calls to `time.time()`.
* In-place mutation of a resolved node becomes a functional update of the
  tree at the resolved segment path (`updateAt`); an operation that raises
  `FuseOSError` returns the error together with the unchanged tree, which
  is faithful because the Python operations never mutate before raising.
* `build_tree` is embedded for the mapping-shaped sources (the
  `state_dict` / `named_parameters` branch, lines 111-124): a source is a
  list of (qualified name, byte buffer) pairs, each tensor abstracted to
  its byte serialization, and text payloads are abstracted to the list of
  code points of the string (`encodeStr`).
-/

namespace MLFS

/-- Python strings, represented as their list of characters. -/
abbrev Str := List Char

/-- Character list of a Lean string literal. -/
def str (s : String) : Str := s.data

/-- Byte buffers as lists of byte values. -/
abbrev Bytes := List Nat

/-- `stat.S_IFDIR`. -/
def S_IFDIR : Nat := 0o040000

/-- `stat.S_IFREG`. -/
def S_IFREG : Nat := 0o100000

/-- `stat.S_IFMT`, the file-type mask. -/
def S_IFMT : Nat := 0o170000

/-- `stat.S_ISDIR(m)`: the file-type bits of `m` are the directory bits. -/
def S_ISDIR (m : Nat) : Bool := m &&& S_IFMT == S_IFDIR

/-- Error codes raised by the engine (`errno` values of `FuseOSError`). -/
inductive Err where
  | ENOENT
  | ENOTDIR
  | EPERM
deriving DecidableEq, Repr

/-- One inode of the in-memory tree: `VNode.__init__` fields.  `children`
is the insertion-ordered name-to-child mapping (`OrderedDict`), `data` the
payload.  The Python constructor sets the three timestamps to the same
current time; here construction sites pass that time explicitly. -/
inductive VNode where
  | mk (name : Str) (mode : Nat) (atime mtime ctime : Nat)
      (children : List (Str × VNode)) (data : Bytes)

def VNode.name : VNode → Str
  | .mk v _ _ _ _ _ _ => v

def VNode.mode : VNode → Nat
  | .mk _ v _ _ _ _ _ => v

def VNode.atime : VNode → Nat
  | .mk _ _ v _ _ _ _ => v

def VNode.mtime : VNode → Nat
  | .mk _ _ _ v _ _ _ => v

def VNode.ctime : VNode → Nat
  | .mk _ _ _ _ v _ _ => v

def VNode.children : VNode → List (Str × VNode)
  | .mk _ _ _ _ _ v _ => v

def VNode.data : VNode → Bytes
  | .mk _ _ _ _ _ _ v => v

/-- Replace the payload of a node (`n.data = ...`). -/
def VNode.setData : VNode → Bytes → VNode
  | .mk nm md a m c ch _, d => .mk nm md a m c ch d

/-- Replace the children mapping of a node. -/
def VNode.setChildren : VNode → List (Str × VNode) → VNode
  | .mk nm md a m c _ d, ch => .mk nm md a m c ch d

/-- A freshly constructed file node: `VNode(name, mode)` with payload `d`
assigned right after construction, at time `t`. -/
def vfile (name : Str) (mode : Nat) (t : Nat) (d : Bytes) : VNode :=
  .mk name mode t t t [] d

/-- A freshly constructed directory node with children `ch`, at time `t`. -/
def vdir (name : Str) (mode : Nat) (t : Nat) (ch : List (Str × VNode)) : VNode :=
  .mk name mode t t t ch []

/-- `children.get(k)`: first binding of key `k` in the mapping. -/
def alookup : List (Str × VNode) → Str → Option VNode
  | [], _ => none
  | (k, v) :: rest, s => if k = s then some v else alookup rest s

/-- `children[k] = v` on an ordered mapping: update the existing binding in
place, or append a new binding at the end. -/
def aset (k : Str) (v : VNode) : List (Str × VNode) → List (Str × VNode)
  | [] => [(k, v)]
  | (k1, c) :: rest => if k1 = k then (k, v) :: rest else (k1, c) :: aset k v rest

/-- `VNode.stat()` result. -/
structure Stat where
  st_mode : Nat
  st_nlink : Nat
  st_size : Nat
  st_ctime : Nat
  st_mtime : Nat
  st_atime : Nat
deriving DecidableEq, Repr

/-- `VNode.stat`: attribute record of a node. -/
def VNode.stat (n : VNode) : Stat :=
  ⟨n.mode, if S_ISDIR n.mode then 2 else 1, n.data.length, n.ctime, n.mtime, n.atime⟩

/-- Prepend a character to the first segment of a split result. -/
def consHead (a : Char) : List Str → List Str
  | [] => [[a]]
  | s :: ss => (a :: s) :: ss

/-- Python `s.split(c)` on character lists (split on a single separator,
keeping empty segments). -/
def splitChar (c : Char) : Str → List Str
  | [] => [[]]
  | a :: rest => if a = c then [] :: splitChar c rest else consHead a (splitChar c rest)

/-- Python `s.strip(c)` for a single character: drop `c` from both ends. -/
def stripChar (c : Char) (l : Str) : Str :=
  ((l.dropWhile (· = c)).reverse.dropWhile (· = c)).reverse

/-- The segment list the resolver walks:
`filter(None, path.strip(sep).split(sep))` with separator `/`. -/
def splitPath (p : Str) : List Str :=
  (splitChar '/' (stripChar '/' p)).filter (fun s => !s.isEmpty)

/-- `MLFS._resolve`, after path-to-segment normalization: walk from `node`
demanding a directory before each descent (`ENOTDIR` otherwise) and a
child named like the segment (`ENOENT` otherwise). -/
def resolveSegs : VNode → List Str → Except Err VNode
  | node, [] => .ok node
  | node, s :: rest =>
    if S_ISDIR node.mode then
      match alookup node.children s with
      | none => .error .ENOENT
      | some c => resolveSegs c rest
    else .error .ENOTDIR

/-- `MLFS._resolve` on a raw path string. -/
def resolvePath (st : VNode) (p : Str) : Except Err VNode :=
  resolveSegs st (splitPath p)

/-- `MLFS._is_bin`: path under `/model` with the weight-snapshot suffix. -/
def is_bin (p : Str) : Bool :=
  (str "/model").isPrefixOf p && (str ".bin").isSuffixOf p

/-- `MLFS._is_grad`: path under `/model` with the gradient suffix. -/
def is_grad (p : Str) : Bool :=
  (str "/model").isPrefixOf p && (str ".grad").isSuffixOf p

/-- Functional update of the node addressed by a segment path: apply `g`
to the first child bound to `s` (the one `alookup` returns), leave the
rest of the mapping alone. -/
def updFirst (s : Str) (g : VNode → VNode) : List (Str × VNode) → List (Str × VNode)
  | [] => []
  | (k, c) :: rest => if k = s then (k, g c) :: rest else (k, c) :: updFirst s g rest

/-- Apply `g` to the child of `node` bound to `s`. -/
def modChild (s : Str) (g : VNode → VNode) : VNode → VNode
  | .mk nm md a m ct ch d => .mk nm md a m ct (updFirst s g ch) d

/-- Apply `f` to the node addressed by the segment path, rebuilding the
spine; this is the functional rendering of mutating the resolved node. -/
def updateAt : List Str → (VNode → VNode) → VNode → VNode
  | [], f => f
  | s :: rest, f => modChild s (updateAt rest f)

/-- `MLFS.getattr`: resolve, then report the node's attributes.  The tree
is returned unchanged on every exit path. -/
def getattr (st : VNode) (p : Str) : Except Err Stat × VNode :=
  match resolveSegs st (splitPath p) with
  | .error e => (.error e, st)
  | .ok n => (.ok n.stat, st)

/-- `MLFS.read`: resolve, then return `bytes(buf[off : off + size])` of
the payload; the slice clamps at the payload end.  The node kind is never
inspected. -/
def read (st : VNode) (p : Str) (size off : Nat) : Except Err Bytes × VNode :=
  match resolveSegs st (splitPath p) with
  | .error e => (.error e, st)
  | .ok n => (.ok ((n.data.drop off).take size), st)

/-- Python `bytearray` slice assignment `d[off : off + len(buf)] = buf`
for a nonnegative offset: both slice bounds clamp at `d.length`, and the
replacement may change the length.  A write starting past the current end
therefore appends `buf` directly, with no zero padding. -/
def sliceAssign (d : Bytes) (buf : Bytes) (off : Nat) : Bytes :=
  d.take off ++ buf ++ d.drop (off + buf.length)

/-- `MLFS.write`: resolve `p`; gradient files (and weight snapshots when
`allow_bin_write` is set) take a positional slice-assignment write, the
log file `/logs/fuse.log` takes an appending write ignoring the offset,
everything else raises `EPERM`.  Returns the accepted byte count and the
new tree. -/
def write (allow_bin_write : Bool) (st : VNode) (p : Str) (buf : Bytes) (off : Nat) :
    Except Err Nat × VNode :=
  match resolveSegs st (splitPath p) with
  | .error e => (.error e, st)
  | .ok _ =>
    if is_grad p || (allow_bin_write && is_bin p) then
      (.ok buf.length, updateAt (splitPath p) (fun n => n.setData (sliceAssign n.data buf off)) st)
    else if p = str "/logs/fuse.log" then
      (.ok buf.length, updateAt (splitPath p) (fun n => n.setData (n.data ++ buf)) st)
    else (.error .EPERM, st)

/-- `MLFS.truncate`: resolve `p`; only a zero-length truncate of a
gradient file (or of a weight snapshot when `allow_bin_write` is set)
succeeds, clearing the payload; everything else raises `EPERM`. -/
def truncate (allow_bin_write : Bool) (st : VNode) (p : Str) (length : Nat) :
    Except Err Nat × VNode :=
  match resolveSegs st (splitPath p) with
  | .error e => (.error e, st)
  | .ok _ =>
    if length == 0 && (is_grad p || (allow_bin_write && is_bin p)) then
      (.ok 0, updateAt (splitPath p) (fun n => n.setData []) st)
    else (.error .EPERM, st)

/-- `os.O_TRUNC` on Linux. -/
def O_TRUNC : Nat := 0o1000

/-- `MLFS.open`: when the truncate-on-open flag is set, delegate to a
zero-length truncate (propagating its failure); otherwise succeed with
handle 0 without even resolving the path. -/
def openf (allow_bin_write : Bool) (st : VNode) (p : Str) (flags : Nat) :
    Except Err Nat × VNode :=
  if flags &&& O_TRUNC != 0 then
    match truncate allow_bin_write st p 0 with
    | (.error e, st1) => (.error e, st1)
    | (.ok _, st1) => (.ok 0, st1)
  else (.ok 0, st)

/-- Text payloads (`v.encode()`): abstracted to the code points of the
string. -/
def encodeStr (s : Str) : Bytes := s.map Char.toNat

/-- Tail of `build_tree`'s per-entry work: attach the weight snapshot
`<leaf>.bin` (payload = the entry's bytes, mode `0o444`) and the gradient
companion `<leaf>.grad` (payload empty, mode `0o666`) to `node`. -/
def addFiles (t : Nat) (leaf : Str) (buf : Bytes) (node : VNode) : VNode :=
  let w := vfile (leaf ++ str ".bin") (S_IFREG ||| 0o444) t buf
  let g := vfile (leaf ++ str ".grad") (S_IFREG ||| 0o666) t []
  node.setChildren (aset (leaf ++ str ".grad") g (aset (leaf ++ str ".bin") w node.children))

/-- The `children.setdefault(part, VNode(part, dir-mode))` walk of
`build_tree`: descend along the non-final name parts, creating missing
directories, then attach the two files at the end. -/
def insertPath (t : Nat) (leaf : Str) (buf : Bytes) : List Str → VNode → VNode
  | [], node => addFiles t leaf buf node
  | part :: rest, node =>
    let child :=
      match alookup node.children part with
      | some c => c
      | none => vdir part (S_IFDIR ||| 0o755) t []
    node.setChildren (aset part (insertPath t leaf buf rest child) node.children)

/-- One iteration of `build_tree`'s loop over the source mapping: split
the qualified name on `.`, all but the last part become directories, the
last part names the `.bin`/`.grad` file pair. -/
def insertEntry (t : Nat) (node : VNode) (name : Str) (buf : Bytes) : VNode :=
  let parts := splitChar '.' name
  insertPath t (parts.getLastD []) buf parts.dropLast node

/-- `build_tree` for a mapping-shaped source (the `state_dict` /
`named_parameters` branch): the fixed `sys`, `activations`, `ir` and
`logs` subtrees around a `model` subtree folded from the source entries
in iteration order.  `t` is the construction time. -/
def build_tree (t : Nat) (entries : List (Str × Bytes)) (meta_str : Str) : VNode :=
  let sysd := vdir (str "sys") (S_IFDIR ||| 0o555) t
    [(str "version", vfile (str "version") (S_IFREG ||| 0o444) t (encodeStr (str "0.6‑mview"))),
     (str "model_str", vfile (str "model_str") (S_IFREG ||| 0o444) t (encodeStr meta_str))]
  let modeld := entries.foldl (fun d e => insertEntry t d e.1 e.2)
    (vdir (str "model") (S_IFDIR ||| 0o755) t [])
  let acts := vdir (str "activations") (S_IFDIR ||| 0o755) t []
  let ird := vdir (str "ir") (S_IFDIR ||| 0o444) t
    [(str "graph.txt", vfile (str "graph.txt") (S_IFREG ||| 0o444) t [])]
  let logd := vdir (str "logs") (S_IFDIR ||| 0o444) t
    [(str "fuse.log", vfile (str "fuse.log") (S_IFREG ||| 0o444) t [])]
  vdir (str "/") (S_IFDIR ||| 0o755) t
    [(str "sys", sysd), (str "model", modeld), (str "activations", acts),
     (str "ir", ird), (str "logs", logd)]

/-! Basic lemmas about the ordered children mapping. -/

theorem alookup_aset_self (k : Str) (v : VNode) (l : List (Str × VNode)) :
    alookup (aset k v l) k = some v := by
  induction l with
  | nil => simp [aset, alookup]
  | cons hd tl ih =>
    obtain ⟨k1, c⟩ := hd
    by_cases h : k1 = k
    · simp [aset, h, alookup]
    · simp [aset, h, alookup, ih]

theorem alookup_aset_ne (k k' : Str) (v : VNode) (l : List (Str × VNode)) (h : k' ≠ k) :
    alookup (aset k v l) k' = alookup l k' := by
  induction l with
  | nil => simp [aset, alookup, Ne.symm h]
  | cons hd tl ih =>
    obtain ⟨k1, c⟩ := hd
    by_cases h1 : k1 = k
    · subst h1
      simp [aset, alookup, Ne.symm h]
    · simp [aset, h1, alookup, ih]

theorem alookup_updFirst_self (s : Str) (g : VNode → VNode) (l : List (Str × VNode)) :
    alookup (updFirst s g l) s = (alookup l s).map g := by
  induction l with
  | nil => simp [updFirst, alookup]
  | cons hd tl ih =>
    obtain ⟨k, c⟩ := hd
    by_cases h : k = s
    · simp [updFirst, h, alookup]
    · simp [updFirst, h, alookup, ih]

theorem alookup_updFirst_ne (s s' : Str) (g : VNode → VNode) (l : List (Str × VNode))
    (h : s' ≠ s) :
    alookup (updFirst s g l) s' = alookup l s' := by
  induction l with
  | nil => simp [updFirst, alookup]
  | cons hd tl ih =>
    obtain ⟨k, c⟩ := hd
    by_cases h1 : k = s
    · subst h1
      simp [updFirst, alookup, Ne.symm h]
    · by_cases h2 : k = s'
      · simp [updFirst, h1, alookup, h2, h]
      · simp [updFirst, h1, alookup, h2, ih]

theorem mem_aset {k' : Str} {c' : VNode} (k : Str) (v : VNode) (l : List (Str × VNode))
    (h : (k', c') ∈ aset k v l) :
    (k' = k ∧ c' = v) ∨ (k', c') ∈ l := by
  induction l with
  | nil =>
    simp [aset] at h
    exact Or.inl h
  | cons hd tl ih =>
    obtain ⟨k1, c⟩ := hd
    by_cases h1 : k1 = k
    · simp [aset, h1] at h
      rcases h with h | h
      · exact Or.inl h
      · exact Or.inr (List.mem_cons_of_mem _ h)
    · simp [aset, h1] at h
      rcases h with h | h
      · exact Or.inr (by simp [h])
      · rcases ih h with h2 | h2
        · exact Or.inl h2
        · exact Or.inr (List.mem_cons_of_mem _ h2)

theorem alookup_mem {l : List (Str × VNode)} {k : Str} {v : VNode}
    (h : alookup l k = some v) : (k, v) ∈ l := by
  induction l with
  | nil => simp [alookup] at h
  | cons hd tl ih =>
    obtain ⟨k1, c⟩ := hd
    by_cases h1 : k1 = k
    · subst h1
      simp [alookup] at h
      simp [h]
    · simp [alookup, h1] at h
      exact List.mem_cons_of_mem _ (ih h)

/-! Unfolding and structural lemmas for the resolver and the updater. -/

theorem resolveSegs_nil (st : VNode) : resolveSegs st [] = .ok st := rfl

theorem resolveSegs_cons (st : VNode) (s : Str) (rest : List Str) :
    resolveSegs st (s :: rest) =
      if S_ISDIR st.mode then
        match alookup st.children s with
        | none => .error .ENOENT
        | some c => resolveSegs c rest
      else .error .ENOTDIR := rfl

theorem modChild_mode (s : Str) (g : VNode → VNode) (n : VNode) :
    (modChild s g n).mode = n.mode := by
  cases n
  rfl

theorem modChild_children (s : Str) (g : VNode → VNode) (n : VNode) :
    (modChild s g n).children = updFirst s g n.children := by
  cases n
  rfl

theorem updateAt_nil (f : VNode → VNode) (st : VNode) : updateAt [] f st = f st := rfl

theorem updateAt_cons (s : Str) (rest : List Str) (f : VNode → VNode) (st : VNode) :
    updateAt (s :: rest) f st = modChild s (updateAt rest f) st := rfl

/-- Updating along a path that resolves, then resolving again, lands on the
updated node: the functional rendering of mutating the resolved node. -/
theorem resolve_updateAt (f : VNode → VNode) :
    ∀ (segs : List Str) (st n : VNode), resolveSegs st segs = .ok n →
      resolveSegs (updateAt segs f st) segs = .ok (f n) := by
  intro segs
  induction segs with
  | nil =>
    intro st n h
    rw [resolveSegs_nil] at h
    cases h
    rfl
  | cons s rest ih =>
    intro st n h
    rw [resolveSegs_cons] at h
    by_cases hdir : S_ISDIR st.mode
    · rw [if_pos hdir] at h
      cases hc : alookup st.children s with
      | none => rw [hc] at h; cases h
      | some c =>
        rw [hc] at h
        rw [updateAt_cons, resolveSegs_cons, modChild_mode, if_pos hdir, modChild_children,
          alookup_updFirst_self, hc]
        exact ih c n h
    · rw [if_neg hdir] at h
      cases h

/-- Resolution splits over list append. -/
theorem resolveSegs_append (l1 l2 : List Str) :
    ∀ st : VNode, resolveSegs st (l1 ++ l2) =
      match resolveSegs st l1 with
      | .error e => .error e
      | .ok n => resolveSegs n l2 := by
  induction l1 with
  | nil =>
    intro st
    simp [resolveSegs_nil]
  | cons s rest ih =>
    intro st
    rw [List.cons_append, resolveSegs_cons, resolveSegs_cons]
    by_cases hdir : S_ISDIR st.mode
    · rw [if_pos hdir, if_pos hdir]
      cases hc : alookup st.children s with
      | none => rfl
      | some c => exact ih c
    · rw [if_neg hdir, if_neg hdir]

/-- Characterization of the not-a-directory failure: resolution fails with
`ENOTDIR` exactly when some proper prefix of the segments resolves to a
non-directory node. -/
theorem resolve_enotdir_iff (segs : List Str) : ∀ st : VNode,
    resolveSegs st segs = .error .ENOTDIR ↔
      ∃ k, k < segs.length ∧
        ∃ n, resolveSegs st (segs.take k) = .ok n ∧ S_ISDIR n.mode = false := by
  induction segs with
  | nil =>
    intro st
    simp [resolveSegs_nil]
  | cons s rest ih =>
    intro st
    constructor
    · intro h
      rw [resolveSegs_cons] at h
      by_cases hdir : S_ISDIR st.mode
      · rw [if_pos hdir] at h
        cases hc : alookup st.children s with
        | none => rw [hc] at h; cases h
        | some c =>
          rw [hc] at h
          obtain ⟨k, hk, n, hres, hnd⟩ := (ih c).mp h
          refine ⟨k + 1, by simpa using hk, n, ?_, hnd⟩
          rw [List.take_succ_cons, resolveSegs_cons, if_pos hdir, hc]
          exact hres
      · exact ⟨0, by simp, st, resolveSegs_nil st, by simpa using hdir⟩
    · rintro ⟨k, hk, n, hres, hnd⟩
      cases k with
      | zero =>
        rw [List.take_zero, resolveSegs_nil] at hres
        cases hres
        rw [resolveSegs_cons, if_neg (by simp [hnd])]
      | succ k =>
        rw [List.take_succ_cons, resolveSegs_cons] at hres
        by_cases hdir : S_ISDIR st.mode
        · rw [if_pos hdir] at hres
          cases hc : alookup st.children s with
          | none => rw [hc] at hres; cases hres
          | some c =>
            rw [hc] at hres
            rw [resolveSegs_cons, if_pos hdir, hc]
            exact (ih c).mpr ⟨k, by simpa using hk, n, hres, hnd⟩
        · rw [if_neg hdir] at hres
          cases hres

/-- Characterization of the not-found failure: resolution fails with
`ENOENT` exactly when some prefix of the segments resolves to a directory
that has no child named like the next segment. -/
theorem resolve_enoent_iff (segs : List Str) : ∀ st : VNode,
    resolveSegs st segs = .error .ENOENT ↔
      ∃ k s2, segs.get? k = some s2 ∧
        ∃ n, resolveSegs st (segs.take k) = .ok n ∧ S_ISDIR n.mode = true ∧
          alookup n.children s2 = none := by
  induction segs with
  | nil =>
    intro st
    simp [resolveSegs_nil]
  | cons s rest ih =>
    intro st
    constructor
    · intro h
      rw [resolveSegs_cons] at h
      by_cases hdir : S_ISDIR st.mode
      · rw [if_pos hdir] at h
        cases hc : alookup st.children s with
        | none =>
          exact ⟨0, s, rfl, st, resolveSegs_nil st, hdir, hc⟩
        | some c =>
          rw [hc] at h
          obtain ⟨k, s2, hget, n, hres, hd2, hnone⟩ := (ih c).mp h
          refine ⟨k + 1, s2, by simpa using hget, n, ?_, hd2, hnone⟩
          rw [List.take_succ_cons, resolveSegs_cons, if_pos hdir, hc]
          exact hres
      · rw [if_neg hdir] at h
        cases h
    · rintro ⟨k, s2, hget, n, hres, hd2, hnone⟩
      cases k with
      | zero =>
        rw [List.take_zero, resolveSegs_nil] at hres
        cases hres
        cases hget
        rw [resolveSegs_cons, if_pos hd2, hnone]
      | succ k =>
        rw [List.take_succ_cons, resolveSegs_cons] at hres
        by_cases hdir : S_ISDIR st.mode
        · rw [if_pos hdir] at hres
          cases hc : alookup st.children s with
          | none => rw [hc] at hres; cases hres
          | some c =>
            rw [hc] at hres
            rw [resolveSegs_cons, if_pos hdir, hc]
            exact (ih c).mpr ⟨k, s2, by simpa using hget, n, hres, hd2, hnone⟩
        · rw [if_neg hdir] at hres
          cases hres

/-! Payload-update helper lemmas. -/

theorem setData_data (n : VNode) (d : Bytes) : (n.setData d).data = d := by
  cases n
  rfl

theorem setData_mode (n : VNode) (d : Bytes) : (n.setData d).mode = n.mode := by
  cases n
  rfl

theorem setData_mtime (n : VNode) (d : Bytes) : (n.setData d).mtime = n.mtime := by
  cases n
  rfl

theorem setData_atime (n : VNode) (d : Bytes) : (n.setData d).atime = n.atime := by
  cases n
  rfl

theorem setData_ctime (n : VNode) (d : Bytes) : (n.setData d).ctime = n.ctime := by
  cases n
  rfl

/-- In-bounds part of slice assignment: when the offset is within the old
payload, the written range reads back as the buffer and the length grows
to `max old (off + n)`. -/
theorem sliceAssign_within (d buf : Bytes) (off : Nat) (h : off ≤ d.length) :
    ((sliceAssign d buf off).drop off).take buf.length = buf ∧
    (sliceAssign d buf off).length = max d.length (off + buf.length) := by
  constructor
  · unfold sliceAssign
    rw [List.append_assoc, @List.drop_left' _ (d.take off) (buf ++ d.drop (off + buf.length))
      off (by simp [List.length_take]; omega), List.take_left]
  · unfold sliceAssign
    simp only [List.length_append, List.length_take, List.length_drop]
    omega

/-- Past-the-end part of slice assignment: a write starting strictly past
the current end appends the buffer directly, with no zero fill. -/
theorem sliceAssign_past (d buf : Bytes) (off : Nat) (h : d.length < off) :
    sliceAssign d buf off = d ++ buf := by
  unfold sliceAssign
  rw [List.take_of_length_le (by omega), List.drop_eq_nil_of_le (by omega), List.append_nil]

/-- Shape of a permitted positional write: the tree is updated at the
resolved path by a slice assignment on the payload. -/
theorem write_pos (allow : Bool) (st : VNode) (p : Str) (buf : Bytes) (off : Nat) (n : VNode)
    (hres : resolveSegs st (splitPath p) = .ok n)
    (hperm : (is_grad p || (allow && is_bin p)) = true) :
    write allow st p buf off =
      (.ok buf.length,
        updateAt (splitPath p) (fun m => m.setData (sliceAssign m.data buf off)) st) ∧
    resolveSegs (write allow st p buf off).2 (splitPath p) =
      .ok (n.setData (sliceAssign n.data buf off)) := by
  have h1 : write allow st p buf off =
      (.ok buf.length,
        updateAt (splitPath p) (fun m => m.setData (sliceAssign m.data buf off)) st) := by
    simp [write, hres, hperm]
  exact ⟨h1, by rw [h1]; exact resolve_updateAt _ _ _ _ hres⟩

/-- A small concrete engine state: the tree built at time 5 from the
single-tensor source mapping `layer.0.weight` with a four-byte buffer. -/
def sample : VNode := build_tree 5 [(str "layer.0.weight", [1, 2, 3, 4])] (str "demo")

/-- A path with the weight-snapshot suffix never has the gradient suffix:
the two string-matching write-policy predicates are mutually exclusive. -/
theorem bin_not_grad {p : Str} (h : is_bin p = true) : is_grad p = false := by
  unfold is_bin at h
  rw [Bool.and_eq_true] at h
  obtain ⟨hpre, hsuf⟩ := h
  have hgr : (str ".grad").isSuffixOf p = false := by
    cases hb : (str ".grad").isSuffixOf p with
    | false => rfl
    | true =>
      exfalso
      obtain ⟨t1, ht1⟩ := List.isSuffixOf_iff_suffix.mp hsuf
      obtain ⟨t2, ht2⟩ := List.isSuffixOf_iff_suffix.mp hb
      have hl1 : t1.length + 4 = p.length := by
        rw [← ht1, List.length_append]
        rfl
      have hl2 : t2.length + 5 = p.length := by
        rw [← ht2, List.length_append]
        rfl
      have hd1 : p.drop t1.length = str ".bin" := by
        rw [← ht1]
        exact List.drop_left t1 _
      have hd2 : p.drop t2.length = str ".grad" := by
        rw [← ht2]
        exact List.drop_left t2 _
      have hsame : p.drop t1.length = (p.drop t2.length).drop 1 := by
        rw [List.drop_drop]
        congr 1
        omega
      rw [hd1, hd2] at hsame
      exact absurd hsame (by decide)
  unfold is_grad
  rw [hgr, Bool.and_false]

/-- C1 as stated fails on the code: the gradient file of `sample` has an
empty payload; a one-byte write at offset 5 yields a payload of length 1
(the buffer appended directly, Python slice-assignment clamping), not the
claimed zero-extended payload of length 6. -/
theorem C1_counterexample :
    (write false sample (str "/model/layer/0/weight.grad") [7] 5).1 = .ok 1 ∧
    (read (write false sample (str "/model/layer/0/weight.grad") [7] 5).2
        (str "/model/layer/0/weight.grad") 6 0).1 = .ok [7] ∧
    ([7] : Bytes) ≠ [0, 0, 0, 0, 0, 7] ∧ (1 : Nat) ≠ 5 + 1 :=
  ⟨rfl, rfl, by decide, by decide⟩

/-- C1 (amended): a permitted positional write replaces the payload by
`take off ++ buf ++ drop (off + n)`; when the offset is within the old
payload the written range reads back as the buffer and the length grows to
`max old (off + n)`; when the offset is strictly past the old end the
buffer is appended directly with no zero padding (length `old + n`, not
`off + n`). -/
theorem C1_write_growth (allow : Bool) (st : VNode) (p : Str) (buf : Bytes) (off : Nat)
    (n : VNode) (hres : resolveSegs st (splitPath p) = .ok n)
    (hperm : (is_grad p || (allow && is_bin p)) = true) :
    ∃ n2, resolveSegs (write allow st p buf off).2 (splitPath p) = .ok n2 ∧
      (write allow st p buf off).1 = .ok buf.length ∧
      n2.data = n.data.take off ++ buf ++ n.data.drop (off + buf.length) ∧
      (off ≤ n.data.length →
        (n2.data.drop off).take buf.length = buf ∧
        n2.data.length = max n.data.length (off + buf.length)) ∧
      (n.data.length < off → n2.data = n.data ++ buf) := by
  obtain ⟨h1, h2⟩ := write_pos allow st p buf off n hres hperm
  refine ⟨n.setData (sliceAssign n.data buf off), h2, by rw [h1], ?_, ?_, ?_⟩
  · rw [setData_data]
    rfl
  · intro hle
    rw [setData_data]
    exact sliceAssign_within n.data buf off hle
  · intro hlt
    rw [setData_data]
    exact sliceAssign_past n.data buf off hlt

theorem C1_write_growth_witness :
    ∃ n2, resolveSegs (write false sample (str "/model/layer/0/weight.grad") [7] 0).2
        (splitPath (str "/model/layer/0/weight.grad")) = .ok n2 ∧ n2.data = [7] := by
  obtain ⟨n2, h1, h2, h3, h4, h5⟩ := C1_write_growth false sample
    (str "/model/layer/0/weight.grad") [7] 0
    (vfile (str "weight.grad") (S_IFREG ||| 0o666) 5 []) rfl rfl
  refine ⟨n2, h1, ?_⟩
  rw [h3]
  rfl

/-- C2: with `allow_bin_write` disabled, a resolvable weight-snapshot path
rejects every write and every non-zero truncate with `EPERM`, the tree is
returned unchanged, and a full read afterwards still returns the old
payload byte-for-byte. -/
theorem C2_bin_readonly (st : VNode) (p : Str) (buf : Bytes) (off len : Nat) (n : VNode)
    (hres : resolveSegs st (splitPath p) = .ok n) (hbin : is_bin p = true) (hlen : len ≠ 0) :
    write false st p buf off = (.error .EPERM, st) ∧
    truncate false st p len = (.error .EPERM, st) ∧
    (read (write false st p buf off).2 p n.data.length 0).1 = .ok n.data ∧
    (read (truncate false st p len).2 p n.data.length 0).1 = .ok n.data := by
  have hgr : is_grad p = false := bin_not_grad hbin
  have hlog : p ≠ str "/logs/fuse.log" := by
    intro he
    rw [he] at hbin
    exact absurd hbin (by decide)
  have hw : write false st p buf off = (.error .EPERM, st) := by
    simp [write, hres, hgr, hlog]
  have hlen2 : (len == 0) = false := by simp [hlen]
  have ht : truncate false st p len = (.error .EPERM, st) := by
    simp [truncate, hres, hlen2]
  refine ⟨hw, ht, ?_, ?_⟩
  · rw [hw]
    simp [read, hres]
  · rw [ht]
    simp [read, hres]

theorem C2_bin_readonly_witness :
    write false sample (str "/model/layer/0/weight.bin") [9] 2 = (.error .EPERM, sample) ∧
    truncate false sample (str "/model/layer/0/weight.bin") 3 = (.error .EPERM, sample) := by
  obtain ⟨h1, h2, h3, h4⟩ := C2_bin_readonly sample (str "/model/layer/0/weight.bin") [9] 2 3
    (vfile (str "weight.bin") (S_IFREG ||| 0o444) 5 [1, 2, 3, 4]) rfl rfl (by decide)
  exact ⟨h1, h2⟩

/-- C5: a write to `/logs/fuse.log` appends the buffer to the payload
whatever the offset is, and returns the buffer length; two successive
writes at arbitrary offsets therefore concatenate in order. -/
theorem C5_log_append (allow : Bool) (st : VNode) (buf buf2 : Bytes) (off off2 : Nat)
    (n : VNode) (hres : resolveSegs st (splitPath (str "/logs/fuse.log")) = .ok n) :
    (write allow st (str "/logs/fuse.log") buf off).1 = .ok buf.length ∧
    ∃ n1, resolveSegs (write allow st (str "/logs/fuse.log") buf off).2
        (splitPath (str "/logs/fuse.log")) = .ok n1 ∧ n1.data = n.data ++ buf ∧
      ∃ n2, resolveSegs (write allow (write allow st (str "/logs/fuse.log") buf off).2
          (str "/logs/fuse.log") buf2 off2).2 (splitPath (str "/logs/fuse.log")) = .ok n2 ∧
        n2.data = n.data ++ buf ++ buf2 := by
  have hg : is_grad (str "/logs/fuse.log") = false := by decide
  have hb : is_bin (str "/logs/fuse.log") = false := by decide
  have hw : ∀ (st1 : VNode) (b : Bytes) (o : Nat),
      write allow st1 (str "/logs/fuse.log") b o =
        match resolveSegs st1 (splitPath (str "/logs/fuse.log")) with
        | .error e => (.error e, st1)
        | .ok _ =>
          (.ok b.length,
            updateAt (splitPath (str "/logs/fuse.log")) (fun x => x.setData (x.data ++ b)) st1) := by
    intro st1 b o
    simp [write, hg, hb]
  have hw1 : write allow st (str "/logs/fuse.log") buf off =
      (.ok buf.length,
        updateAt (splitPath (str "/logs/fuse.log")) (fun x => x.setData (x.data ++ buf)) st) := by
    rw [hw st buf off, hres]
  have hr1 : resolveSegs (write allow st (str "/logs/fuse.log") buf off).2
      (splitPath (str "/logs/fuse.log")) = .ok (n.setData (n.data ++ buf)) := by
    rw [hw1]
    exact resolve_updateAt _ _ _ _ hres
  have hw2 : write allow (write allow st (str "/logs/fuse.log") buf off).2
      (str "/logs/fuse.log") buf2 off2 =
      (.ok buf2.length,
        updateAt (splitPath (str "/logs/fuse.log")) (fun x => x.setData (x.data ++ buf2))
          (write allow st (str "/logs/fuse.log") buf off).2) := by
    rw [hw _ buf2 off2, hr1]
  refine ⟨by rw [hw1], n.setData (n.data ++ buf), hr1, setData_data n _, ?_⟩
  refine ⟨(n.setData (n.data ++ buf)).setData ((n.setData (n.data ++ buf)).data ++ buf2), ?_, ?_⟩
  · rw [hw2]
    exact resolve_updateAt _ _ _ _ hr1
  · rw [setData_data, setData_data]

theorem C5_log_append_witness :
    ∃ n1, resolveSegs (write false sample (str "/logs/fuse.log") [97] 3).2
        (splitPath (str "/logs/fuse.log")) = .ok n1 ∧ n1.data = [] ++ [97] ∧
      ∃ n2, resolveSegs (write false (write false sample (str "/logs/fuse.log") [97] 3).2
          (str "/logs/fuse.log") [98] 17).2 (splitPath (str "/logs/fuse.log")) = .ok n2 ∧
        n2.data = [] ++ [97] ++ [98] :=
  (C5_log_append false sample [97] [98] 3 17
    (vfile (str "fuse.log") (S_IFREG ||| 0o444) 5 []) rfl).2

/-- C6: on a gradient file, writing `buf` at offset 0 and immediately
reading `buf.length` bytes at offset 0 returns exactly `buf`. -/
theorem C6_grad_roundtrip (allow : Bool) (st : VNode) (p : Str) (buf : Bytes) (n : VNode)
    (hres : resolveSegs st (splitPath p) = .ok n) (hgrad : is_grad p = true) :
    (read (write allow st p buf 0).2 p buf.length 0).1 = .ok buf := by
  obtain ⟨h1, h2⟩ := write_pos allow st p buf 0 n hres (by rw [hgrad, Bool.true_or])
  simp only [read, h2, setData_data]
  unfold sliceAssign
  simp [List.take_left]

theorem C6_grad_roundtrip_witness :
    (read (write false sample (str "/model/layer/0/weight.grad") [8, 9] 0).2
        (str "/model/layer/0/weight.grad") (List.length [8, 9]) 0).1 = .ok [8, 9] :=
  C6_grad_roundtrip false sample (str "/model/layer/0/weight.grad") [8, 9]
    (vfile (str "weight.grad") (S_IFREG ||| 0o666) 5 []) rfl rfl

/-- Field access into the attribute record: reported size is the payload
length. -/
theorem stat_st_size (m : VNode) : m.stat.st_size = m.data.length := rfl

/-- C7: a truncate of a resolvable path succeeds exactly when the
requested length is 0 and the path is permitted by the write policy; on
success the payload is cleared and a following attribute query reports
size 0; in every other case the call fails with `EPERM` and the tree is
unchanged. -/
theorem C7_truncate (allow : Bool) (st : VNode) (p : Str) (len : Nat) (n : VNode)
    (hres : resolveSegs st (splitPath p) = .ok n) :
    ((truncate allow st p len).1 = .ok 0 ↔
      (len = 0 ∧ (is_grad p || (allow && is_bin p)) = true)) ∧
    ((len = 0 ∧ (is_grad p || (allow && is_bin p)) = true) →
      ∃ n2, resolveSegs (truncate allow st p len).2 (splitPath p) = .ok n2 ∧ n2.data = [] ∧
        (getattr (truncate allow st p len).2 p).1 = .ok n2.stat ∧ n2.stat.st_size = 0) ∧
    (¬ (len = 0 ∧ (is_grad p || (allow && is_bin p)) = true) →
      truncate allow st p len = (.error .EPERM, st)) := by
  by_cases hc : len = 0 ∧ (is_grad p || (allow && is_bin p)) = true
  · obtain ⟨hl, hp⟩ := hc
    subst hl
    have htr : truncate allow st p 0 =
        (.ok 0, updateAt (splitPath p) (fun m => m.setData []) st) := by
      simp [truncate, hres, hp]
    have hr2 : resolveSegs (truncate allow st p 0).2 (splitPath p) = .ok (n.setData []) := by
      rw [htr]
      exact resolve_updateAt _ _ _ _ hres
    refine ⟨by simp [htr, hp], fun _ => ⟨n.setData [], hr2, setData_data n [], ?_, ?_⟩,
      fun hcon => absurd ⟨rfl, hp⟩ hcon⟩
    · simp [getattr, hr2]
    · rw [stat_st_size, setData_data]
      rfl
  · have hcond : (len == 0 && (is_grad p || (allow && is_bin p))) = false := by
      by_cases hl : len = 0
      · subst hl
        have hx : (is_grad p || (allow && is_bin p)) = false := by
          cases hy : (is_grad p || (allow && is_bin p))
          · rfl
          · exact absurd ⟨rfl, hy⟩ hc
        simp [hx]
      · simp [hl]
    have htr : truncate allow st p len = (.error .EPERM, st) := by
      simp [truncate, hres, hcond]
    refine ⟨⟨fun hk => ?_, fun hcc => absurd hcc hc⟩, fun hcc => absurd hcc hc, fun _ => htr⟩
    rw [htr] at hk
    simp at hk

theorem C7_truncate_witness :
    (truncate false sample (str "/model/layer/0/weight.grad") 0).1 = .ok 0 := by
  obtain ⟨h1, h2, h3⟩ := C7_truncate false sample (str "/model/layer/0/weight.grad") 0
    (vfile (str "weight.grad") (S_IFREG ||| 0o666) 5 []) rfl
  exact h1.mpr ⟨rfl, by decide⟩

/-- C8 as stated fails on the code: `sample` is built at time 5, so the
gradient file's `mtime` is 5; a successful write — a modification
happening at any strictly later time, say 6 — leaves the reported
`st_mtime` at 5, which is not at or after the modification time.  Neither
`write` nor `truncate` ever touches a timestamp. -/
theorem C8_counterexample :
    (write false sample (str "/model/layer/0/weight.grad") [7] 0).1 = .ok 1 ∧
    (getattr (write false sample (str "/model/layer/0/weight.grad") [7] 0).2
        (str "/model/layer/0/weight.grad")).1 = .ok ⟨S_IFREG ||| 0o666, 1, 1, 5, 5, 5⟩ ∧
    ¬ (6 ≤ 5) :=
  ⟨rfl, rfl, by decide⟩

/-- C8 (amended): all three timestamps are set to the construction time at
node construction, and a successful `write` or `truncate` leaves every
timestamp of the written file unchanged — the engine never updates
`mtime` on modification, so attribute queries keep reporting the
construction time. -/
theorem C8_timestamps (nm : Str) (md t : Nat) (d : Bytes) (ch : List (Str × VNode))
    (allow : Bool) (st : VNode) (p : Str) (buf : Bytes) (off len : Nat) (n : VNode)
    (hres : resolveSegs st (splitPath p) = .ok n) :
    ((vfile nm md t d).ctime = t ∧ (vfile nm md t d).mtime = t ∧ (vfile nm md t d).atime = t) ∧
    ((vdir nm md t ch).ctime = t ∧ (vdir nm md t ch).mtime = t ∧ (vdir nm md t ch).atime = t) ∧
    (∀ r st2, write allow st p buf off = (.ok r, st2) →
      ∃ n2, resolveSegs st2 (splitPath p) = .ok n2 ∧
        n2.mtime = n.mtime ∧ n2.atime = n.atime ∧ n2.ctime = n.ctime) ∧
    (∀ r st2, truncate allow st p len = (.ok r, st2) →
      ∃ n2, resolveSegs st2 (splitPath p) = .ok n2 ∧
        n2.mtime = n.mtime ∧ n2.atime = n.atime ∧ n2.ctime = n.ctime) := by
  refine ⟨⟨rfl, rfl, rfl⟩, ⟨rfl, rfl, rfl⟩, ?_, ?_⟩
  · intro r st2 hw
    by_cases hc1 : (is_grad p || (allow && is_bin p)) = true
    · obtain ⟨h1, h2⟩ := write_pos allow st p buf off n hres hc1
      rw [h1, Prod.mk.injEq] at hw
      obtain ⟨-, hst⟩ := hw
      subst hst
      exact ⟨n.setData (sliceAssign n.data buf off), resolve_updateAt _ _ _ _ hres,
        setData_mtime n _, setData_atime n _, setData_ctime n _⟩
    · have hcf : (is_grad p || (allow && is_bin p)) = false := by
        revert hc1
        cases (is_grad p || (allow && is_bin p)) <;> simp
      by_cases hc2 : p = str "/logs/fuse.log"
      · subst hc2
        have h1 : write allow st (str "/logs/fuse.log") buf off =
            (.ok buf.length,
              updateAt (splitPath (str "/logs/fuse.log"))
                (fun x => x.setData (x.data ++ buf)) st) := by
          simp [write, hres, hcf]
        rw [h1, Prod.mk.injEq] at hw
        obtain ⟨-, hst⟩ := hw
        subst hst
        exact ⟨n.setData (n.data ++ buf), resolve_updateAt _ _ _ _ hres,
          setData_mtime n _, setData_atime n _, setData_ctime n _⟩
      · have h1 : write allow st p buf off = (.error .EPERM, st) := by
          simp [write, hres, hcf, hc2]
        rw [h1, Prod.mk.injEq] at hw
        obtain ⟨hbad, -⟩ := hw
        simp at hbad
  · intro r st2 ht
    by_cases hct : (len == 0 && (is_grad p || (allow && is_bin p))) = true
    · have h1 : truncate allow st p len =
          (.ok 0, updateAt (splitPath p) (fun m => m.setData []) st) := by
        simp [truncate, hres, hct]
      rw [h1, Prod.mk.injEq] at ht
      obtain ⟨-, hst⟩ := ht
      subst hst
      exact ⟨n.setData [], resolve_updateAt _ _ _ _ hres,
        setData_mtime n _, setData_atime n _, setData_ctime n _⟩
    · have hctf : (len == 0 && (is_grad p || (allow && is_bin p))) = false := by
        revert hct
        cases (len == 0 && (is_grad p || (allow && is_bin p))) <;> simp
      have h1 : truncate allow st p len = (.error .EPERM, st) := by
        simp [truncate, hres, hctf]
      rw [h1, Prod.mk.injEq] at ht
      obtain ⟨hbad, -⟩ := ht
      simp at hbad

theorem C8_timestamps_witness :
    (vfile (str "a") S_IFREG 7 []).ctime = 7 ∧ (vfile (str "a") S_IFREG 7 []).mtime = 7 ∧
    (vfile (str "a") S_IFREG 7 []).atime = 7 :=
  (C8_timestamps (str "a") S_IFREG 7 [] [] false sample (str "/") [] 0 0 sample rfl).1

/-- C10: without the truncate-on-open flag, `open` succeeds with handle 0
and an unchanged tree for every path, resolvable or not; with the flag set
it delegates to a zero-length truncate, propagating the resolution error
for a path that does not resolve, raising `EPERM` on resolvable paths the
policy disallows, and clearing the payload on permitted ones. -/
theorem C10_open (allow : Bool) (st : VNode) (p : Str) (flags : Nat) :
    (flags &&& O_TRUNC = 0 → openf allow st p flags = (.ok 0, st)) ∧
    (flags &&& O_TRUNC ≠ 0 →
      (∀ e, resolveSegs st (splitPath p) = .error e → openf allow st p flags = (.error e, st)) ∧
      (∀ n, resolveSegs st (splitPath p) = .ok n →
        ((is_grad p || (allow && is_bin p)) = false →
          openf allow st p flags = (.error .EPERM, st)) ∧
        ((is_grad p || (allow && is_bin p)) = true →
          openf allow st p flags =
            (.ok 0, updateAt (splitPath p) (fun m => m.setData []) st)))) := by
  constructor
  · intro h0
    simp [openf, h0]
  · intro h1
    have hb : (flags &&& O_TRUNC != 0) = true := by simpa using h1
    refine ⟨?_, ?_⟩
    · intro e he
      simp [openf, hb, truncate, he]
    · intro n hn
      constructor
      · intro hcf
        simp [openf, hb, truncate, hn, hcf]
      · intro hct
        simp [openf, hb, truncate, hn, hct]

theorem C10_open_witness :
    openf false sample (str "/no/such/path") 0 = (.ok 0, sample) :=
  (C10_open false sample (str "/no/such/path") 0).1 (by decide)

/-- C4: resolution operates on the segment list obtained by splitting on
the separator and discarding empty segments, so `/`, `//a`, `/a/`
normalize like their plain forms; an empty segment sequence resolves to
the root; `ENOTDIR` occurs exactly when a proper prefix of the segments
resolves to a non-directory, `ENOENT` exactly when some prefix resolves to
a directory lacking a child named like the next segment; and resolution
(exercised through `getattr` and `read`) returns the tree unchanged. -/
theorem C4_resolver (st : VNode) (p : Str) (segs : List Str) (size off : Nat) :
    resolvePath st p = resolveSegs st (splitPath p) ∧
    splitPath (str "/") = [] ∧
    splitPath (str "//a") = splitPath (str "/a") ∧
    splitPath (str "/a/") = splitPath (str "a") ∧
    resolvePath st (str "/") = .ok st ∧
    (resolveSegs st segs = .error .ENOTDIR ↔
      ∃ k, k < segs.length ∧
        ∃ n, resolveSegs st (segs.take k) = .ok n ∧ S_ISDIR n.mode = false) ∧
    (resolveSegs st segs = .error .ENOENT ↔
      ∃ k s2, segs.get? k = some s2 ∧
        ∃ n, resolveSegs st (segs.take k) = .ok n ∧ S_ISDIR n.mode = true ∧
          alookup n.children s2 = none) ∧
    (getattr st p).2 = st ∧ (read st p size off).2 = st :=
  ⟨rfl, rfl, rfl, rfl, rfl, resolve_enotdir_iff segs st, resolve_enoent_iff segs st,
    by unfold getattr; cases resolveSegs st (splitPath p) <;> rfl,
    by unfold read; cases resolveSegs st (splitPath p) <;> rfl⟩

/-- Every directory node in a tree carries an empty payload; file nodes
are unconstrained.  This invariant holds for every tree the builder
produces, because only file nodes are ever given data. -/
inductive DirsEmpty : VNode → Prop where
  | mk : ∀ (nm : Str) (md a m ct : Nat) (ch : List (Str × VNode)) (d : Bytes),
      (S_ISDIR md = true → d = []) →
      (∀ k c, (k, c) ∈ ch → DirsEmpty c) → DirsEmpty (.mk nm md a m ct ch d)

theorem DirsEmpty.data_eq {n : VNode} (h : DirsEmpty n) (hd : S_ISDIR n.mode = true) :
    n.data = [] := by
  cases h with
  | mk nm md a m ct ch d h1 h2 => exact h1 hd

theorem DirsEmpty.child {n : VNode} {k : Str} {c : VNode} (h : DirsEmpty n)
    (hc : alookup n.children k = some c) : DirsEmpty c := by
  cases h with
  | mk nm md a m ct ch d h1 h2 => exact h2 k c (alookup_mem hc)

theorem resolve_dirsEmpty : ∀ (segs : List Str) (st n : VNode),
    DirsEmpty st → resolveSegs st segs = .ok n → DirsEmpty n := by
  intro segs
  induction segs with
  | nil =>
    intro st n hD h
    rw [resolveSegs_nil] at h
    cases h
    exact hD
  | cons s rest ih =>
    intro st n hD h
    rw [resolveSegs_cons] at h
    by_cases hdir : S_ISDIR st.mode
    · rw [if_pos hdir] at h
      cases hc : alookup st.children s with
      | none => rw [hc] at h; cases h
      | some c => rw [hc] at h; exact ih c n (hD.child hc) h
    · rw [if_neg hdir] at h
      cases h

theorem dirsEmpty_setChildren {n : VNode} (ch : List (Str × VNode))
    (hD : DirsEmpty n) (hch : ∀ k c, (k, c) ∈ ch → DirsEmpty c) :
    DirsEmpty (n.setChildren ch) := by
  cases n with
  | mk nm md a m ct ch0 d =>
    cases hD with
    | mk _ _ _ _ _ _ _ h1 h2 => exact .mk nm md a m ct ch d h1 hch

theorem dirsEmpty_vfile (nm : Str) (md t : Nat) (d : Bytes) (h : S_ISDIR md = false) :
    DirsEmpty (vfile nm md t d) := by
  refine .mk nm md t t t [] d (fun hh => ?_) (fun k c hm => ?_)
  · rw [h] at hh
    cases hh
  · simp at hm

theorem dirsEmpty_vdir_nil (nm : Str) (md t : Nat) : DirsEmpty (vdir nm md t []) := by
  refine .mk nm md t t t [] [] (fun _ => rfl) (fun k c hm => ?_)
  simp at hm

theorem dirsEmpty_insertPath (t : Nat) (leaf : Str) (buf : Bytes) :
    ∀ (parts : List Str) (node : VNode), DirsEmpty node →
      DirsEmpty (insertPath t leaf buf parts node) := by
  intro parts
  induction parts with
  | nil =>
    intro node hD
    show DirsEmpty (addFiles t leaf buf node)
    unfold addFiles
    apply dirsEmpty_setChildren _ hD
    intro k c hm
    rcases mem_aset _ _ _ hm with ⟨-, rfl⟩ | hm2
    · exact dirsEmpty_vfile _ _ _ _ (by decide)
    · rcases mem_aset _ _ _ hm2 with ⟨-, rfl⟩ | hm3
      · exact dirsEmpty_vfile _ _ _ _ (by decide)
      · cases hD with
        | mk _ _ _ _ _ _ _ h1 h2 => exact h2 _ _ hm3
  | cons part rest ih =>
    intro node hD
    show DirsEmpty (node.setChildren (aset part (insertPath t leaf buf rest
      (match alookup node.children part with
       | some c => c
       | none => vdir part (S_IFDIR ||| 0o755) t [])) node.children))
    apply dirsEmpty_setChildren _ hD
    intro k c hm
    rcases mem_aset _ _ _ hm with ⟨-, rfl⟩ | hm2
    · apply ih
      cases hcl : alookup node.children part with
      | some c0 => exact hD.child hcl
      | none => exact dirsEmpty_vdir_nil _ _ _
    · cases hD with
      | mk _ _ _ _ _ _ _ h1 h2 => exact h2 _ _ hm2

theorem dirsEmpty_foldl (t : Nat) (entries : List (Str × Bytes)) :
    ∀ d : VNode, DirsEmpty d →
      DirsEmpty (entries.foldl (fun d e => insertEntry t d e.1 e.2) d) := by
  induction entries with
  | nil =>
    intro d hD
    exact hD
  | cons e rest ih =>
    intro d hD
    exact ih _ (dirsEmpty_insertPath t _ _ _ _ hD)

theorem dirsEmpty_build_tree (t : Nat) (entries : List (Str × Bytes)) (meta : Str) :
    DirsEmpty (build_tree t entries meta) := by
  have hmodel : DirsEmpty (entries.foldl (fun d e => insertEntry t d e.1 e.2)
      (vdir (str "model") (S_IFDIR ||| 0o755) t [])) :=
    dirsEmpty_foldl t entries _ (dirsEmpty_vdir_nil _ _ _)
  simp only [build_tree]
  refine .mk _ _ _ _ _ _ _ (fun _ => rfl) ?_
  intro k c hm
  simp only [List.mem_cons, List.not_mem_nil, or_false, Prod.mk.injEq] at hm
  rcases hm with ⟨-, rfl⟩ | ⟨-, rfl⟩ | ⟨-, rfl⟩ | ⟨-, rfl⟩ | ⟨-, rfl⟩
  · refine .mk _ _ _ _ _ _ _ (fun _ => rfl) ?_
    intro k2 c2 hm2
    simp only [List.mem_cons, List.not_mem_nil, or_false, Prod.mk.injEq] at hm2
    rcases hm2 with ⟨-, rfl⟩ | ⟨-, rfl⟩ <;> exact dirsEmpty_vfile _ _ _ _ (by decide)
  · exact hmodel
  · exact dirsEmpty_vdir_nil _ _ _
  · refine .mk _ _ _ _ _ _ _ (fun _ => rfl) ?_
    intro k2 c2 hm2
    simp only [List.mem_cons, List.not_mem_nil, or_false, Prod.mk.injEq] at hm2
    rcases hm2 with ⟨-, rfl⟩
    exact dirsEmpty_vfile _ _ _ _ (by decide)
  · refine .mk _ _ _ _ _ _ _ (fun _ => rfl) ?_
    intro k2 c2 hm2
    simp only [List.mem_cons, List.not_mem_nil, or_false, Prod.mk.injEq] at hm2
    rcases hm2 with ⟨-, rfl⟩
    exact dirsEmpty_vfile _ _ _ _ (by decide)

/-- C9: on a built tree, reading any path that resolves to a directory
node never fails with not-a-directory: `read` does not inspect the node
kind, directory payloads are empty, and the slice of an empty payload is
empty, so the call returns the empty byte string for every size and
offset, with the tree unchanged. -/
theorem C9_read_dir (t : Nat) (entries : List (Str × Bytes)) (meta : Str) (p : Str)
    (size off : Nat) (n : VNode)
    (hres : resolveSegs (build_tree t entries meta) (splitPath p) = .ok n)
    (hdir : S_ISDIR n.mode = true) :
    read (build_tree t entries meta) p size off = (.ok [], build_tree t entries meta) := by
  have hD : DirsEmpty n :=
    resolve_dirsEmpty _ _ _ (dirsEmpty_build_tree t entries meta) hres
  have hd0 : n.data = [] := hD.data_eq hdir
  simp [read, hres, hd0]

theorem C9_read_dir_witness :
    read sample (str "/model/layer/0") 10 0 = (.ok [], sample) :=
  C9_read_dir 5 [(str "layer.0.weight", [1, 2, 3, 4])] (str "demo") (str "/model/layer/0")
    10 0
    (VNode.mk (str "0") (S_IFDIR ||| 0o755) 5 5 5
      [(str "weight.bin", vfile (str "weight.bin") (S_IFREG ||| 0o444) 5 [1, 2, 3, 4]),
       (str "weight.grad", vfile (str "weight.grad") (S_IFREG ||| 0o666) 5 [])] [])
    rfl rfl

/-! Facts about splitting qualified names, used by the tree-builder
claims. -/

theorem splitChar_nil (c : Char) : splitChar c [] = [[]] := rfl

theorem splitChar_cons (c a : Char) (rest : Str) :
    splitChar c (a :: rest) =
      if a = c then [] :: splitChar c rest else consHead a (splitChar c rest) := rfl

theorem consHead_cons (a : Char) (s : Str) (ss : List Str) :
    consHead a (s :: ss) = (a :: s) :: ss := rfl

theorem splitChar_ne_nil (c : Char) : ∀ l : Str, splitChar c l ≠ [] := by
  intro l
  cases l with
  | nil => simp [splitChar_nil]
  | cons a rest =>
    rw [splitChar_cons]
    by_cases hac : a = c
    · simp [hac]
    · rw [if_neg hac]
      cases h : splitChar c rest with
      | nil => simp [consHead]
      | cons s ss => simp [consHead_cons]

theorem not_mem_of_mem_splitChar (c : Char) :
    ∀ (l : Str) (s : Str), s ∈ splitChar c l → c ∉ s := by
  intro l
  induction l with
  | nil =>
    intro s hs
    rw [splitChar_nil] at hs
    simp at hs
    simp [hs]
  | cons a rest ih =>
    intro s hs
    rw [splitChar_cons] at hs
    by_cases hac : a = c
    · rw [if_pos hac] at hs
      rcases List.mem_cons.mp hs with rfl | hs2
      · simp
      · exact ih s hs2
    · rw [if_neg hac] at hs
      cases h : splitChar c rest with
      | nil => exact absurd h (splitChar_ne_nil c rest)
      | cons s0 ss =>
        rw [h, consHead_cons] at hs
        rcases List.mem_cons.mp hs with rfl | hs2
        · intro hmem
          rcases List.mem_cons.mp hmem with rfl | hmem2
          · exact hac rfl
          · exact ih s0 (h ▸ List.mem_cons_self s0 ss) hmem2
        · exact ih s (h ▸ List.mem_cons_of_mem s0 hs2)

/-- Joining with the separator, the inverse of `splitChar`. -/
def joinChar (c : Char) : List Str → Str
  | [] => []
  | [s] => s
  | s :: rest => s ++ c :: joinChar c rest

theorem joinChar_cons_cons (c : Char) (a : Str) (s : Str) (ss : List Str) :
    joinChar c (a :: s :: ss) = a ++ c :: joinChar c (s :: ss) := rfl

theorem joinChar_splitChar (c : Char) : ∀ l : Str, joinChar c (splitChar c l) = l := by
  intro l
  induction l with
  | nil => rfl
  | cons a rest ih =>
    rw [splitChar_cons]
    by_cases hac : a = c
    · rw [if_pos hac]
      cases h : splitChar c rest with
      | nil => exact absurd h (splitChar_ne_nil c rest)
      | cons s ss =>
        rw [h] at ih
        rw [joinChar_cons_cons, List.nil_append, ih, hac]
    · rw [if_neg hac]
      cases h : splitChar c rest with
      | nil => exact absurd h (splitChar_ne_nil c rest)
      | cons s ss =>
        rw [h] at ih
        rw [consHead_cons]
        cases ss with
        | nil =>
          show a :: s = a :: rest
          rw [show joinChar c [s] = s from rfl] at ih
          rw [ih]
        | cons s2 ss2 =>
          rw [joinChar_cons_cons] at ih
          rw [joinChar_cons_cons, List.cons_append, ih]

theorem splitChar_inj {c : Char} {l l2 : Str} (h : splitChar c l = splitChar c l2) :
    l = l2 := by
  have h1 := joinChar_splitChar c l
  have h2 := joinChar_splitChar c l2
  rw [← h1, ← h2, h]

theorem dropLast_append_getLastD {α : Type} :
    ∀ (l : List α) (d : α), l ≠ [] → l.dropLast ++ [l.getLastD d] = l := by
  intro l
  induction l with
  | nil =>
    intro d h
    exact absurd rfl h
  | cons a rest ih =>
    intro d h
    cases rest with
    | nil => rfl
    | cons b rest2 =>
      rw [List.getLastD_cons, List.dropLast_cons₂, List.cons_append, ih a (by simp)]

/-! Key-disjointness facts for the two file suffixes. -/

theorem key_bin_ne_grad_cross (l1 l2 : Str) : l1 ++ str ".bin" ≠ l2 ++ str ".grad" := by
  intro h
  have h2 := congrArg List.reverse h
  rw [List.reverse_append, List.reverse_append,
    show (str ".bin").reverse = ['n', 'i', 'b', '.'] from rfl,
    show (str ".grad").reverse = ['d', 'a', 'r', 'g', '.'] from rfl] at h2
  simp at h2

theorem dot_mem_key (l sfx : Str) (h : '.' ∈ sfx) : '.' ∈ l ++ sfx :=
  List.mem_append.mpr (Or.inr h)

/-! Structural invariant of the model subtree: every child bound to a
dot-free key (a directory created from a qualified-name part) is a
directory node.  Name parts never contain the separator, while the file
keys always do (they end in `.bin` / `.grad`), so the builder's
`setdefault` on a part key never lands on a file. -/

inductive DirInv : VNode → Prop where
  | mk : ∀ (nm : Str) (md a m ct : Nat) (ch : List (Str × VNode)) (d : Bytes),
      (∀ k c, (k, c) ∈ ch → '.' ∉ k → S_ISDIR c.mode = true) →
      (∀ k c, (k, c) ∈ ch → '.' ∉ k → DirInv c) →
      DirInv (.mk nm md a m ct ch d)

theorem dirInv_child {n : VNode} {k : Str} {c : VNode} (h : DirInv n)
    (hc : alookup n.children k = some c) (hk : '.' ∉ k) :
    S_ISDIR c.mode = true ∧ DirInv c := by
  cases h with
  | mk nm md a m ct ch d h1 h2 =>
    exact ⟨h1 k c (alookup_mem hc) hk, h2 k c (alookup_mem hc) hk⟩

theorem dirInv_setChildren {n : VNode} (ch : List (Str × VNode))
    (hch : ∀ k c, (k, c) ∈ ch → '.' ∉ k → S_ISDIR c.mode = true ∧ DirInv c) :
    DirInv (n.setChildren ch) := by
  cases n with
  | mk nm md a m ct ch0 d =>
    exact .mk nm md a m ct ch d (fun k c hm hk => (hch k c hm hk).1)
      (fun k c hm hk => (hch k c hm hk).2)

theorem S_ISDIR_dir755 : S_ISDIR (S_IFDIR ||| 0o755) = true := by decide

theorem vdir_mode (nm : Str) (md t : Nat) (ch : List (Str × VNode)) :
    (vdir nm md t ch).mode = md := rfl

theorem dirInv_vdir_nil (nm : Str) (md t : Nat) : DirInv (vdir nm md t []) := by
  refine .mk nm md t t t [] [] (fun k c hm => ?_) (fun k c hm => ?_) <;> simp at hm

theorem setChildren_mode (n : VNode) (ch : List (Str × VNode)) :
    (n.setChildren ch).mode = n.mode := by
  cases n
  rfl

theorem setChildren_children (n : VNode) (ch : List (Str × VNode)) :
    (n.setChildren ch).children = ch := by
  cases n
  rfl

theorem insertPath_mode (t : Nat) (leaf : Str) (buf : Bytes) :
    ∀ (parts : List Str) (node : VNode),
      (insertPath t leaf buf parts node).mode = node.mode := by
  intro parts node
  cases parts with
  | nil =>
    show (addFiles t leaf buf node).mode = node.mode
    unfold addFiles
    rw [setChildren_mode]
  | cons part rest =>
    show (node.setChildren _).mode = node.mode
    rw [setChildren_mode]

theorem dirInv_insertPath (t : Nat) (leaf : Str) (buf : Bytes) :
    ∀ (parts : List Str) (node : VNode), (∀ q ∈ parts, '.' ∉ q) → DirInv node →
      DirInv (insertPath t leaf buf parts node) := by
  intro parts
  induction parts with
  | nil =>
    intro node hdots hI
    show DirInv (addFiles t leaf buf node)
    unfold addFiles
    apply dirInv_setChildren
    intro k c hm hk
    rcases mem_aset _ _ _ hm with ⟨rfl, rfl⟩ | hm2
    · exact absurd (dot_mem_key leaf (str ".grad") (by decide)) hk
    · rcases mem_aset _ _ _ hm2 with ⟨rfl, rfl⟩ | hm3
      · exact absurd (dot_mem_key leaf (str ".bin") (by decide)) hk
      · cases hI with
        | mk _ _ _ _ _ _ _ h1 h2 => exact ⟨h1 _ _ hm3 hk, h2 _ _ hm3 hk⟩
  | cons part rest ih =>
    intro node hdots hI
    show DirInv (node.setChildren (aset part (insertPath t leaf buf rest
      (match alookup node.children part with
       | some c => c
       | none => vdir part (S_IFDIR ||| 0o755) t [])) node.children))
    apply dirInv_setChildren
    intro k c hm hk
    rcases mem_aset _ _ _ hm with ⟨-, rfl⟩ | hm2
    · have hdrest : ∀ q ∈ rest, '.' ∉ q := fun q hq => hdots q (List.mem_cons_of_mem part hq)
      have hchild : S_ISDIR (match alookup node.children part with
          | some c => c
          | none => vdir part (S_IFDIR ||| 0o755) t []).mode = true ∧
          DirInv (match alookup node.children part with
          | some c => c
          | none => vdir part (S_IFDIR ||| 0o755) t []) := by
        cases hcl : alookup node.children part with
        | some c0 => exact dirInv_child hI hcl (hdots part (List.mem_cons_self part rest))
        | none =>
          refine ⟨?_, dirInv_vdir_nil _ _ _⟩
          show S_ISDIR (vdir part (S_IFDIR ||| 0o755) t []).mode = true
          rw [vdir_mode]
          exact S_ISDIR_dir755
      refine ⟨?_, ih _ hdrest hchild.2⟩
      rw [insertPath_mode]
      exact hchild.1
    · cases hI with
      | mk _ _ _ _ _ _ _ h1 h2 => exact ⟨h1 _ _ hm2 hk, h2 _ _ hm2 hk⟩

/-- Descend one resolution step into a directory with a known child. -/
theorem resolveSegs_cons_dir {node : VNode} {s : Str} {rest : List Str} {c : VNode}
    (hdir : S_ISDIR node.mode = true) (hc : alookup node.children s = some c) :
    resolveSegs node (s :: rest) = resolveSegs c rest := by
  rw [resolveSegs_cons, if_pos hdir, hc]

/-- After inserting one source entry, its two file nodes resolve under the
insertion root with exactly the constructed payloads. -/
theorem resolve_insertPath (t : Nat) (leaf : Str) (buf : Bytes) :
    ∀ (parts : List Str) (node : VNode), DirInv node → S_ISDIR node.mode = true →
      (∀ q ∈ parts, '.' ∉ q) →
      resolveSegs (insertPath t leaf buf parts node) (parts ++ [leaf ++ str ".bin"]) =
        .ok (vfile (leaf ++ str ".bin") (S_IFREG ||| 0o444) t buf) ∧
      resolveSegs (insertPath t leaf buf parts node) (parts ++ [leaf ++ str ".grad"]) =
        .ok (vfile (leaf ++ str ".grad") (S_IFREG ||| 0o666) t []) := by
  intro parts
  induction parts with
  | nil =>
    intro node hI hdir hdots
    have hne1 : leaf ++ str ".bin" ≠ leaf ++ str ".grad" :=
      fun h => key_bin_ne_grad_cross leaf leaf h
    have hmode : S_ISDIR (addFiles t leaf buf node).mode = true := by
      unfold addFiles
      rw [setChildren_mode]
      exact hdir
    constructor
    · have hlk : alookup (addFiles t leaf buf node).children (leaf ++ str ".bin") =
          some (vfile (leaf ++ str ".bin") (S_IFREG ||| 0o444) t buf) := by
        unfold addFiles
        rw [setChildren_children, alookup_aset_ne _ _ _ _ hne1, alookup_aset_self]
      show resolveSegs (addFiles t leaf buf node) ([] ++ [leaf ++ str ".bin"]) = _
      rw [List.nil_append, resolveSegs_cons_dir hmode hlk, resolveSegs_nil]
    · have hlk : alookup (addFiles t leaf buf node).children (leaf ++ str ".grad") =
          some (vfile (leaf ++ str ".grad") (S_IFREG ||| 0o666) t []) := by
        unfold addFiles
        rw [setChildren_children, alookup_aset_self]
      show resolveSegs (addFiles t leaf buf node) ([] ++ [leaf ++ str ".grad"]) = _
      rw [List.nil_append, resolveSegs_cons_dir hmode hlk, resolveSegs_nil]
  | cons part rest ih =>
    intro node hI hdir hdots
    have hdrest : ∀ q ∈ rest, '.' ∉ q := fun q hq => hdots q (List.mem_cons_of_mem part hq)
    have hpart : '.' ∉ part := hdots part (List.mem_cons_self part rest)
    have hchild : S_ISDIR (match alookup node.children part with
        | some c => c
        | none => vdir part (S_IFDIR ||| 0o755) t []).mode = true ∧
        DirInv (match alookup node.children part with
        | some c => c
        | none => vdir part (S_IFDIR ||| 0o755) t []) := by
      cases hcl : alookup node.children part with
      | some c0 => exact dirInv_child hI hcl hpart
      | none =>
        refine ⟨?_, dirInv_vdir_nil _ _ _⟩
        show S_ISDIR (vdir part (S_IFDIR ||| 0o755) t []).mode = true
        rw [vdir_mode]
        exact S_ISDIR_dir755
    have hmode : S_ISDIR (insertPath t leaf buf (part :: rest) node).mode = true := by
      rw [insertPath_mode]
      exact hdir
    have hlk : alookup (insertPath t leaf buf (part :: rest) node).children part =
        some (insertPath t leaf buf rest (match alookup node.children part with
          | some c => c
          | none => vdir part (S_IFDIR ||| 0o755) t [])) := by
      show alookup (node.setChildren (aset part _ node.children)).children part = _
      rw [setChildren_children, alookup_aset_self]
    obtain ⟨ihb, ihg⟩ := ih (match alookup node.children part with
        | some c => c
        | none => vdir part (S_IFDIR ||| 0o755) t []) hchild.2 hchild.1 hdrest
    constructor
    · rw [List.cons_append, resolveSegs_cons_dir hmode hlk]
      exact ihb
    · rw [List.cons_append, resolveSegs_cons_dir hmode hlk]
      exact ihg

/-! Frame property: inserting one entry does not disturb the resolution of
a different entry's file, because every key it touches differs from every
key on the preserved path. -/

theorem resolve_insertPath_frame (t : Nat) (leaf2 : Str) (buf2 : Bytes) (sfx : Str)
    (hsfx : sfx = str ".bin" ∨ sfx = str ".grad") :
    ∀ (parts2 parts : List Str) (leaf : Str) (node w : VNode),
      (∀ q ∈ parts2, '.' ∉ q) → (∀ q ∈ parts, '.' ∉ q) →
      (parts ≠ parts2 ∨ leaf ≠ leaf2) →
      resolveSegs node (parts ++ [leaf ++ sfx]) = .ok w →
      resolveSegs (insertPath t leaf2 buf2 parts2 node) (parts ++ [leaf ++ sfx]) = .ok w := by
  intro parts2
  induction parts2 with
  | nil =>
    intro parts leaf node w hd2 hd hne hpre
    cases parts with
    | nil =>
      have hl : leaf ≠ leaf2 := by
        rcases hne with hp | hl
        · exact absurd rfl hp
        · exact hl
      rw [List.nil_append] at hpre ⊢
      rw [resolveSegs_cons] at hpre
      by_cases hdir : S_ISDIR node.mode
      · rw [if_pos hdir] at hpre
        cases hlk : alookup node.children (leaf ++ sfx) with
        | none => rw [hlk] at hpre; cases hpre
        | some c =>
          rw [hlk] at hpre
          have hcw : c = w := Except.ok.inj hpre
          subst hcw
          have hmode2 : S_ISDIR (addFiles t leaf2 buf2 node).mode = true := by
            unfold addFiles
            rw [setChildren_mode]
            exact hdir
          have hkb : leaf ++ sfx ≠ leaf2 ++ str ".bin" := by
            rcases hsfx with rfl | rfl
            · exact fun h => hl (List.append_cancel_right h)
            · exact fun h => key_bin_ne_grad_cross leaf2 leaf h.symm
          have hkg : leaf ++ sfx ≠ leaf2 ++ str ".grad" := by
            rcases hsfx with rfl | rfl
            · exact key_bin_ne_grad_cross leaf leaf2
            · exact fun h => hl (List.append_cancel_right h)
          have hlk2 : alookup (addFiles t leaf2 buf2 node).children (leaf ++ sfx) =
              some c := by
            unfold addFiles
            rw [setChildren_children, alookup_aset_ne _ _ _ _ hkg,
              alookup_aset_ne _ _ _ _ hkb]
            exact hlk
          show resolveSegs (addFiles t leaf2 buf2 node) [leaf ++ sfx] = .ok c
          rw [resolveSegs_cons_dir hmode2 hlk2, resolveSegs_nil]
      · rw [if_neg hdir] at hpre
        cases hpre
    | cons p rest =>
      rw [List.cons_append] at hpre ⊢
      rw [resolveSegs_cons] at hpre
      by_cases hdir : S_ISDIR node.mode
      · rw [if_pos hdir] at hpre
        cases hlk : alookup node.children p with
        | none => rw [hlk] at hpre; cases hpre
        | some c =>
          rw [hlk] at hpre
          have hdp : '.' ∉ p := hd p (List.mem_cons_self p rest)
          have hmode2 : S_ISDIR (addFiles t leaf2 buf2 node).mode = true := by
            unfold addFiles
            rw [setChildren_mode]
            exact hdir
          have hkb : p ≠ leaf2 ++ str ".bin" := by
            intro h
            apply hdp
            rw [h]
            exact dot_mem_key leaf2 (str ".bin") (by decide)
          have hkg : p ≠ leaf2 ++ str ".grad" := by
            intro h
            apply hdp
            rw [h]
            exact dot_mem_key leaf2 (str ".grad") (by decide)
          have hlk2 : alookup (addFiles t leaf2 buf2 node).children p = some c := by
            unfold addFiles
            rw [setChildren_children, alookup_aset_ne _ _ _ _ hkg,
              alookup_aset_ne _ _ _ _ hkb]
            exact hlk
          show resolveSegs (addFiles t leaf2 buf2 node) (p :: (rest ++ [leaf ++ sfx])) = .ok w
          rw [resolveSegs_cons_dir hmode2 hlk2]
          exact hpre
      · rw [if_neg hdir] at hpre
        cases hpre
  | cons p2 rest2 ih =>
    intro parts leaf node w hd2 hd hne hpre
    have hdp2 : '.' ∉ p2 := hd2 p2 (List.mem_cons_self p2 rest2)
    have hd2r : ∀ q ∈ rest2, '.' ∉ q := fun q hq => hd2 q (List.mem_cons_of_mem p2 hq)
    cases parts with
    | nil =>
      rw [List.nil_append] at hpre ⊢
      rw [resolveSegs_cons] at hpre
      by_cases hdir : S_ISDIR node.mode
      · rw [if_pos hdir] at hpre
        cases hlk : alookup node.children (leaf ++ sfx) with
        | none => rw [hlk] at hpre; cases hpre
        | some c =>
          rw [hlk] at hpre
          have hcw : c = w := Except.ok.inj hpre
          subst hcw
          have hkey : leaf ++ sfx ≠ p2 := by
            intro h
            apply hdp2
            rw [← h]
            rcases hsfx with rfl | rfl
            · exact dot_mem_key leaf _ (by decide)
            · exact dot_mem_key leaf _ (by decide)
          have hmode2 : S_ISDIR (insertPath t leaf2 buf2 (p2 :: rest2) node).mode = true := by
            rw [insertPath_mode]
            exact hdir
          have hlk2 : alookup (insertPath t leaf2 buf2 (p2 :: rest2) node).children
              (leaf ++ sfx) = some c := by
            show alookup (node.setChildren (aset p2 _ node.children)).children
              (leaf ++ sfx) = some c
            rw [setChildren_children, alookup_aset_ne _ _ _ _ hkey]
            exact hlk
          rw [resolveSegs_cons_dir hmode2 hlk2, resolveSegs_nil]
      · rw [if_neg hdir] at hpre
        cases hpre
    | cons p rest =>
      rw [List.cons_append] at hpre ⊢
      rw [resolveSegs_cons] at hpre
      by_cases hdir : S_ISDIR node.mode
      · rw [if_pos hdir] at hpre
        cases hlk : alookup node.children p with
        | none => rw [hlk] at hpre; cases hpre
        | some c =>
          rw [hlk] at hpre
          have hmode2 : S_ISDIR (insertPath t leaf2 buf2 (p2 :: rest2) node).mode = true := by
            rw [insertPath_mode]
            exact hdir
          by_cases hpp : p = p2
          · subst hpp
            have hlk2 : alookup (insertPath t leaf2 buf2 (p :: rest2) node).children p =
                some (insertPath t leaf2 buf2 rest2 c) := by
              show alookup (node.setChildren (aset p (insertPath t leaf2 buf2 rest2
                (match alookup node.children p with
                 | some c => c
                 | none => vdir p (S_IFDIR ||| 0o755) t [])) node.children)).children p = _
              rw [setChildren_children, alookup_aset_self, hlk]
            rw [resolveSegs_cons_dir hmode2 hlk2]
            apply ih rest leaf c w hd2r (fun q hq => hd q (List.mem_cons_of_mem p hq)) ?_ hpre
            rcases hne with hp | hl
            · left
              intro hr
              exact hp (by rw [hr])
            · right
              exact hl
          · have hlk2 : alookup (insertPath t leaf2 buf2 (p2 :: rest2) node).children p =
                some c := by
              show alookup (node.setChildren (aset p2 _ node.children)).children p = some c
              rw [setChildren_children, alookup_aset_ne _ _ _ _ hpp]
              exact hlk
            rw [resolveSegs_cons_dir hmode2 hlk2]
            exact hpre
      · rw [if_neg hdir] at hpre
        cases hpre

/-- Directory segments of a qualified name: all dot-separated parts but
the last (`name.split(".")[:-1]`). -/
def entryDirs (name : Str) : List Str := (splitChar '.' name).dropLast

/-- Leaf of a qualified name: the last dot-separated part
(`name.split(".")[-1]`). -/
def entryLeaf (name : Str) : Str := (splitChar '.' name).getLastD []

theorem entryDirs_nodot (name : Str) : ∀ q ∈ entryDirs name, '.' ∉ q := by
  intro q hq
  exact not_mem_of_mem_splitChar '.' name q (List.dropLast_subset _ hq)

theorem entry_decomp (name : Str) :
    entryDirs name ++ [entryLeaf name] = splitChar '.' name :=
  dropLast_append_getLastD _ [] (splitChar_ne_nil '.' name)

theorem entry_ne {name name2 : Str} (h : name ≠ name2) :
    entryDirs name ≠ entryDirs name2 ∨ entryLeaf name ≠ entryLeaf name2 := by
  by_contra hcon
  push_neg at hcon
  obtain ⟨hdirs, hleaf⟩ := hcon
  apply h
  apply @splitChar_inj '.'
  rw [← entry_decomp, ← entry_decomp, hdirs, hleaf]

/-- Folding further entries over the model directory preserves the
resolution of a file belonging to a qualified name none of them carries. -/
theorem resolve_fold_frame (t : Nat) (name : Str) (sfx : Str)
    (hsfx : sfx = str ".bin" ∨ sfx = str ".grad") :
    ∀ (entries : List (Str × Bytes)) (d w : VNode),
      (∀ e ∈ entries, e.1 ≠ name) →
      resolveSegs d (entryDirs name ++ [entryLeaf name ++ sfx]) = .ok w →
      resolveSegs (entries.foldl (fun d e => insertEntry t d e.1 e.2) d)
          (entryDirs name ++ [entryLeaf name ++ sfx]) = .ok w := by
  intro entries
  induction entries with
  | nil =>
    intro d w hne hpre
    exact hpre
  | cons e rest ih =>
    intro d w hne hpre
    rw [List.foldl_cons]
    apply ih _ _ (fun e2 he2 => hne e2 (List.mem_cons_of_mem e he2))
    show resolveSegs (insertPath t (entryLeaf e.1) e.2 (entryDirs e.1) d)
      (entryDirs name ++ [entryLeaf name ++ sfx]) = .ok w
    apply resolve_insertPath_frame t (entryLeaf e.1) e.2 sfx hsfx (entryDirs e.1)
      (entryDirs name) (entryLeaf name) d w (entryDirs_nodot e.1) (entryDirs_nodot name)
      ?_ hpre
    exact entry_ne (Ne.symm (hne e (List.mem_cons_self e rest)))

/-- After folding a duplicate-free entry list into the model directory,
each entry's `.bin` file resolves to its buffer and its `.grad` file to an
empty payload. -/
theorem resolve_fold (t : Nat) :
    ∀ (entries : List (Str × Bytes)) (d : VNode), DirInv d → S_ISDIR d.mode = true →
      entries.Pairwise (fun a b => a.1 ≠ b.1) →
      ∀ name buf, (name, buf) ∈ entries →
        resolveSegs (entries.foldl (fun d e => insertEntry t d e.1 e.2) d)
            (entryDirs name ++ [entryLeaf name ++ str ".bin"]) =
          .ok (vfile (entryLeaf name ++ str ".bin") (S_IFREG ||| 0o444) t buf) ∧
        resolveSegs (entries.foldl (fun d e => insertEntry t d e.1 e.2) d)
            (entryDirs name ++ [entryLeaf name ++ str ".grad"]) =
          .ok (vfile (entryLeaf name ++ str ".grad") (S_IFREG ||| 0o666) t []) := by
  intro entries
  induction entries with
  | nil =>
    intro d hI hdir hpw name buf hmem
    simp at hmem
  | cons e rest ih =>
    intro d hI hdir hpw name buf hmem
    rw [List.foldl_cons]
    rcases List.mem_cons.mp hmem with heq | hmem2
    · cases heq
      obtain ⟨hb, hg⟩ := resolve_insertPath t (entryLeaf name) buf (entryDirs name) d hI
        hdir (entryDirs_nodot name)
      have hrest : ∀ e2 ∈ rest, e2.1 ≠ name :=
        fun e2 he2 => Ne.symm ((List.pairwise_cons.mp hpw).1 e2 he2)
      constructor
      · apply resolve_fold_frame t name (str ".bin") (Or.inl rfl) rest _ _ hrest
        show resolveSegs (insertPath t (entryLeaf name) buf (entryDirs name) d) _ = _
        exact hb
      · apply resolve_fold_frame t name (str ".grad") (Or.inr rfl) rest _ _ hrest
        show resolveSegs (insertPath t (entryLeaf name) buf (entryDirs name) d) _ = _
        exact hg
    · have hI2 : DirInv (insertEntry t d e.1 e.2) := by
        show DirInv (insertPath t (entryLeaf e.1) e.2 (entryDirs e.1) d)
        exact dirInv_insertPath _ _ _ _ _ (entryDirs_nodot e.1) hI
      have hdir2 : S_ISDIR (insertEntry t d e.1 e.2).mode = true := by
        show S_ISDIR (insertPath t (entryLeaf e.1) e.2 (entryDirs e.1) d).mode = true
        rw [insertPath_mode]
        exact hdir
      exact ih _ hI2 hdir2 (List.pairwise_cons.mp hpw).2 name buf hmem2

/-- One-step unfolding of the builder's output tree: the fixed skeleton
around the folded model subtree. -/
theorem build_tree_eq (t : Nat) (entries : List (Str × Bytes)) (meta : Str) :
    build_tree t entries meta = vdir (str "/") (S_IFDIR ||| 0o755) t
      [(str "sys", vdir (str "sys") (S_IFDIR ||| 0o555) t
          [(str "version", vfile (str "version") (S_IFREG ||| 0o444) t
              (encodeStr (str "0.6‑mview"))),
           (str "model_str", vfile (str "model_str") (S_IFREG ||| 0o444) t
              (encodeStr meta))]),
       (str "model", entries.foldl (fun d e => insertEntry t d e.1 e.2)
          (vdir (str "model") (S_IFDIR ||| 0o755) t [])),
       (str "activations", vdir (str "activations") (S_IFDIR ||| 0o755) t []),
       (str "ir", vdir (str "ir") (S_IFDIR ||| 0o444) t
          [(str "graph.txt", vfile (str "graph.txt") (S_IFREG ||| 0o444) t [])]),
       (str "logs", vdir (str "logs") (S_IFDIR ||| 0o444) t
          [(str "fuse.log", vfile (str "fuse.log") (S_IFREG ||| 0o444) t [])])] := rfl

theorem vdir_children (nm : Str) (md t : Nat) (ch : List (Str × VNode)) :
    (vdir nm md t ch).children = ch := rfl

theorem alookup_cons (k : Str) (v : VNode) (rest : List (Str × VNode)) (s : Str) :
    alookup ((k, v) :: rest) s = if k = s then some v else alookup rest s := rfl

/-- Resolution through the root's `model` child reaches the folded model
subtree. -/
theorem resolve_build_model (t : Nat) (entries : List (Str × Bytes)) (meta : Str)
    (X : List Str) :
    resolveSegs (build_tree t entries meta) (str "model" :: X) =
      resolveSegs (entries.foldl (fun d e => insertEntry t d e.1 e.2)
        (vdir (str "model") (S_IFDIR ||| 0o755) t [])) X := by
  have hmode : S_ISDIR (build_tree t entries meta).mode = true := by
    rw [build_tree_eq, vdir_mode]
    exact S_ISDIR_dir755
  have hlk : alookup (build_tree t entries meta).children (str "model") =
      some (entries.foldl (fun d e => insertEntry t d e.1 e.2)
        (vdir (str "model") (S_IFDIR ||| 0o755) t [])) := by
    rw [build_tree_eq, vdir_children, alookup_cons,
      if_neg (by decide : ¬ str "sys" = str "model"), alookup_cons,
      if_pos (rfl : str "model" = str "model")]
  rw [resolveSegs_cons_dir hmode hlk]

/-- C3: for every entry of a duplicate-free source mapping, the built tree
contains under the model subtree, at the directory path given by the
dot-separated qualified name, the two sibling files `<leaf>.bin` — a
read-only file whose payload is exactly the entry's buffer — and
`<leaf>.grad` — a writable file whose payload is empty regardless of any
gradient state in the source.  The resolved nodes are exactly the
freshly-constructed file nodes, childless and with the stated modes. -/
theorem C3_tree_builder (t : Nat) (entries : List (Str × Bytes)) (meta : Str)
    (name : Str) (buf : Bytes) (hmem : (name, buf) ∈ entries)
    (hnodup : entries.Pairwise (fun a b => a.1 ≠ b.1)) :
    resolveSegs (build_tree t entries meta)
        (str "model" :: (entryDirs name ++ [entryLeaf name ++ str ".bin"])) =
      .ok (vfile (entryLeaf name ++ str ".bin") (S_IFREG ||| 0o444) t buf) ∧
    resolveSegs (build_tree t entries meta)
        (str "model" :: (entryDirs name ++ [entryLeaf name ++ str ".grad"])) =
      .ok (vfile (entryLeaf name ++ str ".grad") (S_IFREG ||| 0o666) t []) := by
  have hmode : S_ISDIR (vdir (str "model") (S_IFDIR ||| 0o755) t []).mode = true := by
    rw [vdir_mode]
    exact S_ISDIR_dir755
  obtain ⟨hb, hg⟩ := resolve_fold t entries (vdir (str "model") (S_IFDIR ||| 0o755) t [])
    (dirInv_vdir_nil _ _ _) hmode hnodup name buf hmem
  rw [resolve_build_model, resolve_build_model]
  exact ⟨hb, hg⟩

theorem C3_tree_builder_witness :
    resolveSegs sample (splitPath (str "/model/layer/0/weight.bin")) =
      .ok (vfile (str "weight.bin") (S_IFREG ||| 0o444) 5 [1, 2, 3, 4]) ∧
    resolveSegs sample (splitPath (str "/model/layer/0/weight.grad")) =
      .ok (vfile (str "weight.grad") (S_IFREG ||| 0o666) 5 []) := by
  obtain ⟨hb, hg⟩ := C3_tree_builder 5 [(str "layer.0.weight", [1, 2, 3, 4])] (str "demo")
    (str "layer.0.weight") [1, 2, 3, 4] (by simp) (by simp)
  exact ⟨hb, hg⟩

end MLFS
